/-
  Verification of the Candor compile-and-run core (heap, hashing, and the
  x64 full code generator) against its natural-language specification.

  Shallow embedding conventions:
  * machine integers are Nat with explicit `% 4294967296` (2^32) where the
    source computes in uint32;
  * pointers into a page are modelled as byte offsets from the page's data
    buffer; a page's `top`/`limit` become an offset and the page capacity;
  * C++ loops are transcribed either structurally (recursion on the list
    being walked) or with an explicit fuel argument whose sufficiency is
    proved in the theorems that use it.
-/
import Mathlib

namespace Candor

/-! ## Space / Page model (src/heap.cc, src/heap.h)

A `Space::Page` owns a buffer of `size` bytes with a bump pointer `top_`
and a `limit_` one past the buffer.  We keep `size` (so that
`limit - data = size`) and `top` as the offset `top_ - data_`. -/

structure Page where
  size : Nat
  top : Nat
deriving DecidableEq, Repr

/-- The bits of `Heap::needs_gc(...)` that `Space::Allocate` can set:
`Heap::kGCNewSpace` for the new space, `Heap::kGCOldSpace` otherwise. -/
inductive GCKind where
  | newSpace
  | oldSpace
deriving DecidableEq, Repr

/-- A `Space` (src/heap.h): an ordered list of pages, the index of the
currently selected page (whose `top_`/`limit_` the space's pointers alias),
the configured `page_size_`, the accumulated `size_` and the `size_limit()`
value.  `compute_size_limit` is not part of the sources; `Allocate` only
compares against the stored limit, so we carry it as state.  `isNew`
records whether this space is the heap's new space (used to pick the
needs-GC kind). -/
structure Space where
  pages : List Page
  cur : Nat
  page_size : Nat
  size : Nat
  sizeLimit : Nat
  isNew : Bool
deriving DecidableEq, Repr

/-- `uint32_t even_bytes = bytes + (bytes & 0x01);` (src/heap.cc:48),
computed in uint32. -/
def evenBytes (bytes : Nat) : Nat :=
  (bytes + bytes % 2) % 4294967296

/-- `RoundUp` from src/utils.h:300-304: the minimum number that is at least
`value` and divisible by `to`, computed in uint32. -/
def RoundUp (value toVal : Nat) : Nat :=
  if value % toVal = 0 then value
  else (value + toVal - value % toVal) % 4294967296

/-- The page-walk loop of `Space::Allocate` (src/heap.cc:52-56).  Starting
from the list head, the loop selects pages in order until the selected page
fits; each iteration first selects `item`'s page and only then advances
`item`, so the loop exits with `item == NULL` exactly when no page fits or
the first fitting page is the last one.  `some i` means the loop exited on
the first fitting page `i` with `item != NULL`; `none` means it exited with
`item == NULL` (the `AddPage` branch is then taken). -/
def scanPages (eb : Nat) : List Page → Option Nat
  | [] => none
  | p :: rest =>
    if p.top + eb ≤ p.size then
      if rest.length = 0 then none else some 0
    else
      match scanPages eb rest with
      | some i => some (i + 1)
      | none => none

/-- `Space::AddPage` (src/heap.cc:36-43): pushes a fresh page of
`RoundUp(size, page_size())` bytes, adds that amount to `size_`, and
selects the new page. -/
def Space.AddPage (s : Space) (size : Nat) : Space :=
  { s with
    pages := s.pages ++ [{ size := RoundUp size s.page_size, top := 0 }]
    cur := s.pages.length
    size := (s.size + RoundUp size s.page_size) % 4294967296 }

/-- Result of `Space::Allocate`: the returned pointer is byte `off` of page
`page` of the updated space `sp`; `gcSignal` is the value written into the
heap's needs-GC flag, if any. -/
structure AllocResult where
  page : Nat
  off : Nat
  sp : Space
  gcSignal : Option GCKind
deriving DecidableEq, Repr

/-- `Space::Allocate` (src/heap.cc:46-75).  Rounds the request up to an
even number of bytes; bumps the current page when it has room; otherwise
walks all pages from the head (see `scanPages`); when the walk ends with
`item == NULL` it signals needs-GC for this space's kind if
`size() > size_limit()` and then calls `AddPage(even_bytes)`.  Finally the
result is the selected page's `top_`, which is bumped by `even_bytes`. -/
def Space.Allocate (s : Space) (bytes : Nat) : AllocResult :=
  let eb := evenBytes bytes
  let cp := s.pages.getD s.cur { size := 0, top := 0 }
  if cp.top + eb ≤ cp.size then
    { page := s.cur
      off := cp.top
      sp := { s with pages := s.pages.set s.cur { size := cp.size, top := cp.top + eb } }
      gcSignal := none }
  else
    match scanPages eb s.pages with
    | some i =>
      let p := s.pages.getD i { size := 0, top := 0 }
      { page := i
        off := p.top
        sp := { s with pages := s.pages.set i { size := p.size, top := p.top + eb }, cur := i }
        gcSignal := none }
    | none =>
      let s1 := s.AddPage eb
      -- the fresh page is selected with top_ = data_, so the bump yields top = eb
      { page := s.pages.length
        off := 0
        sp := { s1 with pages := s.pages ++ [{ size := RoundUp eb s.page_size, top := eb }] }
        gcSignal :=
          if s.sizeLimit < s.size then
            some (if s.isNew then GCKind.newSpace else GCKind.oldSpace)
          else none }

/-! ## String hashing (src/utils.h:37-49, src/heap.cc HString::Hash,
src/x64/macroassembler-x64.cc Masm::StringHash)

Strings are byte sequences; each byte is a `Nat` below 256.  The C++
`ComputeHash` reads the bytes through `const char*`, and `char` is signed
on x86-64, so a byte at or above 0x80 enters the sum sign-extended.  The
assembly routine loads each byte with `movzxb`, i.e. zero-extended. -/

/-- The value `(uint32_t)(int)(char)c` by which `hash += key[i]` increases
the hash in `ComputeHash` (src/utils.h:40): bytes at or above 0x80 are
sign-extended. -/
def signedCharVal (c : Nat) : Nat :=
  if c % 256 < 128 then c % 256 else c % 256 + (4294967296 - 256)

/-- One iteration of the `ComputeHash` loop (src/utils.h:39-43):
`hash += key[i]; hash += (hash << 10); hash ^= (hash >> 6);` in uint32. -/
def cppHashStep (hash c : Nat) : Nat :=
  let h1 := (hash + signedCharVal c) % 4294967296
  let h2 := (h1 + ((h1 <<< 10) % 4294967296)) % 4294967296
  h2 ^^^ (h2 >>> 6)

/-- The final mixup shared verbatim by src/utils.h:44-46, the spec's mixer
and the tail of `Masm::StringHash`:
`hash += (hash << 3); hash ^= (hash >> 11); hash += (hash << 15);`
in uint32 (an xor of two values below 2^32 stays below 2^32). -/
def hashMixup (hash : Nat) : Nat :=
  let h1 := (hash + ((hash <<< 3) % 4294967296)) % 4294967296
  let h2 := h1 ^^^ (h1 >>> 11)
  (h2 + ((h2 <<< 15) % 4294967296)) % 4294967296

/-- `ComputeHash(const char* key, uint32_t length)` (src/utils.h:37-49). -/
def ComputeHash (key : List Nat) : Nat :=
  hashMixup (key.foldl cppHashStep 0)

/-- One iteration of the `Masm::StringHash` loop
(src/x64/macroassembler-x64.cc:394-412): `movzxb` loads the byte
zero-extended, then `addl`/`shll`/`addl`/`xorl`/`shrl` perform
`result += ch; result += result << 10; result ^= result >> 6` in 32 bits. -/
def masmHashStep (result ch : Nat) : Nat :=
  let h1 := (result + ch % 256) % 4294967296
  let h2 := (((h1 <<< 10) % 4294967296) + h1) % 4294967296
  h2 ^^^ (h2 >>> 6)

/-- The hash computed by the loop and mixup of `Masm::StringHash`
(src/x64/macroassembler-x64.cc:377-432) when the cached field is zero. -/
def Masm.StringHashCompute (key : List Nat) : Nat :=
  hashMixup (key.foldl masmHashStep 0)

/-- The spec's own 32-bit mixer, stated from the spec's words only
("h += c; h += h<<10; h ^= h>>6; … final h += h<<3; h ^= h>>11;
h += h<<15"), with `c` the byte value; used to compare the two
implementations against the spec for the refinement claim. -/
def specHashMixer (key : List Nat) : Nat :=
  hashMixup (key.foldl (fun h c =>
    let h1 := (h + c) % 4294967296
    let h2 := (h1 + ((h1 <<< 10) % 4294967296)) % 4294967296
    h2 ^^^ (h2 >>> 6)) 0)

/-- A heap string as `HString::Hash` sees it: the 32-bit hash header field
at offset 8 (0 = not computed yet) and the byte content. -/
structure HStringObj where
  hashField : Nat
  bytes : List Nat
deriving DecidableEq, Repr

/-- Result of one `HString::Hash` call: the returned hash, the string
object afterwards, and whether the call wrote to the header
(`*hash_addr = hash`). -/
structure HashCallResult where
  hash : Nat
  obj : HStringObj
  wrote : Bool
deriving DecidableEq, Repr

/-- `HString::Hash` (src/heap.cc:286-294): read the cached field; when it
is zero, compute the hash and store it (this store happens even when the
computed hash is itself zero). -/
def HString.Hash (s : HStringObj) : HashCallResult :=
  if s.hashField = 0 then
    let h := ComputeHash s.bytes
    { hash := h, obj := { s with hashField := h }, wrote := true }
  else
    { hash := s.hashField, obj := s, wrote := false }

/-! ## Array length with shrink (src/heap.cc HArray::Length) -/

/-- A tagged runtime value as far as the shrink loop needs it: nil
(`HNil::New()`, the all-zero word) or anything else. -/
inductive HVal where
  | hnil
  | hval (n : Nat)
deriving DecidableEq, Repr

/-- Modelled from the spec: `HObject::LookupProperty` delegates to
`RuntimeLookupProperty` (src/runtime.cc, not under src/).  Per spec
section 4.4, a lookup with `insert = 0` yields the slot holding the key's
value, and a key that was never inserted reads as nil.  We therefore model
the backing map of an array as a total function from integer keys to
values, with never-inserted keys (negative indices included) mapping to
`HVal.hnil`. -/
def HObject.lookupSlot (elems : Int → HVal) (key : Int) : HVal :=
  elems key

/-- The do-while loop of `HArray::Length` (src/heap.cc:374-383):
`do { if (shrinked < 0) break; shrinked--; slot = lookup(shrinked); }
while (*slot == nil);` — the result is the value of `shrinked` when the
loop exits.  `fuel` bounds the iteration count; the theorems only invoke
it with enough fuel (the loop decrements `shrinked` every iteration). -/
def HArray.shrinkLoop (elems : Int → HVal) : Nat → Int → Int
  | 0, shrinked => shrinked
  | fuel + 1, shrinked =>
    if shrinked < 0 then shrinked
    else
      let s1 := shrinked - 1
      if HObject.lookupSlot elems s1 = HVal.hnil then HArray.shrinkLoop elems fuel s1
      else s1

/-- `HArray::Length(obj, shrink)` (src/heap.cc:364-391).  Returns the
length reported to the caller together with the value stored back by
`SetLength` (`none` when no store happens).  `len` is the array's length
field; `elems` its backing map (see `HObject.lookupSlot`). -/
def HArray.Length (len : Int) (elems : Int → HVal) (shrink : Bool) : Int × Option Int :=
  if shrink then
    let shrinked := HArray.shrinkLoop elems (len.toNat + 2) len
    if len ≠ shrinked - 1 then (shrinked + 1, some (shrinked + 1))
    else (len, none)
  else (len, none)

/-! ## Weak references (src/heap.cc Heap::RemoveWeak) -/

/-- An `HValueWeakRef` entry: the referenced value (by identity) and the
registered callback (opaque). -/
structure HValueWeakRef where
  value : Nat
  callback : Nat
deriving DecidableEq, Repr

/-- The while loop of `Heap::RemoveWeak` (src/heap.cc:151-158), run for at
most `fuel` iterations: `some refs` when the loop exited (tail == NULL)
within the fuel, `none` when the fuel ran out with the loop still going.
The loop body tests `tail->value()->value() == value` and calls
`Remove(tail)` on a match; crucially the source never advances the cursor
(`Heap::Dereference`, the analogous routine two functions above, ends its
body with `tail = tail->prev()`).  On a match `Remove` frees the node while
`tail` still points at it, so the subsequent iteration reads freed memory —
undefined in C++; we model that stale read as reading the shrunken list at
the unchanged index.  The theorems only exercise the no-match branch, whose
semantics (state unchanged forever) is exact. -/
def Heap.RemoveWeakRun (v : Nat) : Nat → List HValueWeakRef → Option Nat → Option (List HValueWeakRef)
  | 0, _, _ => none
  | _ + 1, refs, none => some refs
  | fuel + 1, refs, some i =>
    if (refs.getD i { value := 0, callback := 0 }).value = v then
      Heap.RemoveWeakRun v fuel (refs.eraseIdx i) (some i)
    else
      Heap.RemoveWeakRun v fuel refs (some i)

/-- `Heap::RemoveWeak(value)` (src/heap.cc:151-158): start the loop at the
list's tail (`List::tail()` is the most recently pushed item). -/
def Heap.RemoveWeak (v : Nat) (fuel : Nat) (refs : List HValueWeakRef) : Option (List HValueWeakRef) :=
  Heap.RemoveWeakRun v fuel refs (if refs.length = 0 then none else some (refs.length - 1))

/-! ## Full code generator models (src/x64/fullgen-x64.cc,
src/x64/macroassembler-x64.cc) -/

/-- `PowerOfTwo` loop body (src/utils.h:307-312):
`while (result != 0 && result < value) result <<= 1;` in uint32. -/
def powerOfTwoGo (value : Nat) : Nat → Nat → Nat
  | 0, result => result
  | fuel + 1, result =>
    if result ≠ 0 ∧ result < value then
      powerOfTwoGo value fuel ((result <<< 1) % 4294967296)
    else result

/-- `PowerOfTwo(value)` (src/utils.h:307-312): `result` starts at 2 and
doubles until it is 0 (uint32 wrap) or at least `value`.  The loop runs at
most 31 times (2 = 2^1 doubles to 2^32 ≡ 0 in 31 steps), so fuel 33 never
runs out. -/
def PowerOfTwo (value : Nat) : Nat :=
  powerOfTwoGo value 33 2

/-- The backing-map capacity requested by `Fullgen::VisitObjectLiteral`
and `Fullgen::VisitArrayLiteral` (src/x64/fullgen-x64.cc:585-621):
`PowerOfTwo(node->children()->length() << 1)` in uint32, where `n` is the
number of key/value pairs (elements).  For array literals `children()` is
the element list (the same function iterates it to emit the element
stores); for object literals the pair count is modelled from the spec
("capacity is the smallest power of two ≥ 2·n", two pairs → capacity 4),
the object-literal AST class not being under src/. -/
def Fullgen.objectLiteralCapacity (n : Nat) : Nat :=
  PowerOfTwo ((n <<< 1) % 4294967296)

/-- A cell of the generator's compile-time root-context list
(`root_context()`), as pushed by the `Fullgen` constructor: the global
object, the two boolean constants, and interned type-name strings
(each recorded with the length argument passed to `HString::New`). -/
inductive RootCell where
  | globalObject
  | boolVal (b : Bool)
  | typeStr (s : String) (len : Nat)
deriving DecidableEq, Repr

/-- Whether a root cell is one of the interned type-name strings. -/
def RootCell.isTypeStr : RootCell → Bool
  | .typeStr _ _ => true
  | _ => false

/-- The root-context contents pushed by the `Fullgen` constructor
(src/x64/fullgen-x64.cc:41-66), in push order: the global object, `true`,
`false`, then the type-name strings. -/
def Fullgen.rootContextInit : List RootCell :=
  [ RootCell.globalObject,
    RootCell.boolVal true,
    RootCell.boolVal false,
    RootCell.typeStr "nil" 3,
    RootCell.typeStr "boolean" 7,
    RootCell.typeStr "number" 6,
    RootCell.typeStr "string" 6,
    RootCell.typeStr "object" 6,
    RootCell.typeStr "array" 5,
    RootCell.typeStr "function" 8,
    RootCell.typeStr "cdata" 5 ]

/-- The operations `Fullgen::GeneratePrologue` emits, in order
(src/x64/fullgen-x64.cc:109-147), abstracted one constructor per emission
site: `push(rbp)`, `movq(rbp, rsp)`, `AllocateSpills(stack_slots)`,
`FillStackSlots()`, `AllocateContext(context_slots)`, the per-argument
compare/visit/store group, the `body` label bind and the final
`xorq(rdx, rdx)`. -/
inductive PrologueOp where
  | pushRbp
  | movRbpRsp
  | allocateSpills (stackSlots : Nat)
  | fillStackSlots
  | allocateContext (contextSlots : Nat)
  | copyArg (i : Nat)
  | bindBodyLabel
  | clearRdx
deriving DecidableEq, Repr

/-- `Fullgen::GeneratePrologue(stmt)` (src/x64/fullgen-x64.cc:109-147) as
the list of operations it emits; note `AllocateContext(context_slots)` is
emitted unconditionally. -/
def Fullgen.GeneratePrologue (stackSlots contextSlots nargs : Nat) : List PrologueOp :=
  [ PrologueOp.pushRbp,
    PrologueOp.movRbpRsp,
    PrologueOp.allocateSpills stackSlots,
    PrologueOp.fillStackSlots,
    PrologueOp.allocateContext contextSlots ]
  ++ (List.range nargs).map PrologueOp.copyArg
  ++ [ PrologueOp.bindBodyLabel, PrologueOp.clearRdx ]

/-- A machine word as the context-allocation model needs it: nil, a
reference to an allocated context, or any other word. -/
inductive CVal where
  | vnil
  | ctxRef (idx : Nat)
  | word (n : Nat)
deriving DecidableEq, Repr

/-- A context object as laid out by `Masm::AllocateContext`
(8*(slots+2) bytes plus tag header): parent pointer at +8, slot count at
+16, slots from +24. -/
structure CtxObj where
  parent : CVal
  slotCount : Nat
  slots : List CVal
deriving DecidableEq, Repr

/-- The state `Masm::AllocateContext` acts on: the heap's allocated
contexts (a reference `ctxRef i` denotes `heap[i]`) and the context
register `rdi`. -/
structure MasmState where
  heap : List CtxObj
  rdi : CVal
deriving DecidableEq, Repr

/-- `Masm::AllocateContext(slots)` (src/x64/macroassembler-x64.cc:157-183):
unconditionally allocates a context of `8 * (slots + 2)` bytes (plus
header), stores the current context register `rdi` as its parent and
`slots` as its slot count, nil-fills the slots, and moves the new context
into `rdi`. -/
def Masm.AllocateContext (slots : Nat) (st : MasmState) : MasmState :=
  { heap := st.heap ++ [{ parent := st.rdi, slotCount := slots, slots := List.replicate slots CVal.vnil }],
    rdi := CVal.ctxRef st.heap.length }

/-- `Heap::Error` as used by the generator (src/heap.cc:99-113). -/
inductive HeapError where
  | kErrorNone
  | kErrorIncorrectLhs
  | kErrorCallWithoutVariable
  | kErrorExpectedLoop
deriving DecidableEq, Repr

/-- `Heap::ErrorToString` (src/heap.cc:99-113); `kErrorNone` maps to NULL. -/
def Heap.ErrorToString : HeapError → Option String
  | HeapError.kErrorNone => none
  | HeapError.kErrorIncorrectLhs => some "Incorrect left-hand side"
  | HeapError.kErrorCallWithoutVariable => some "Call without variable"
  | HeapError.kErrorExpectedLoop => some "Expected loop"

/-- An emitted instruction as the break/continue model needs it: a raw
byte (`emitb`) or a jump to a label. -/
inductive CodeInstr where
  | byte (b : Nat)
  | jmp (label : Nat)
deriving DecidableEq, Repr

/-- Generator state for the break/continue paths: the emitted code, the
recorded error message and byte offset (`error_msg_`, `error_pos_`), and
the enclosing loop's labels (`loop_start_`, `loop_end_`; `none` outside a
loop). -/
structure GenState where
  code : List CodeInstr
  errorMsg : Option String
  errorPos : Nat
  loopStart : Option Nat
  loopEnd : Option Nat
deriving DecidableEq, Repr

/-- Modelled from the spec: `Fullgen::SetError` is declared in fullgen.h,
which is not under src/; per spec section 7 a compile-time semantic error
is "recorded on the generator with a byte offset". -/
def Fullgen.SetError (msg : Option String) (pos : Nat) (st : GenState) : GenState :=
  { st with errorMsg := msg, errorPos := pos }

/-- `Fullgen::Throw(err)` (src/x64/fullgen-x64.cc:83-87): record the error
string and the current node's byte offset, then `emitb(0xcc)` (int3). -/
def Fullgen.Throw (err : HeapError) (offset : Nat) (st : GenState) : GenState :=
  let st1 := Fullgen.SetError (Heap.ErrorToString err) offset st
  { st1 with code := st1.code ++ [CodeInstr.byte 0xcc] }

/-- `Fullgen::VisitBreak` (src/x64/fullgen-x64.cc:688-697): outside a loop
(`loop_end() == NULL`) throw `kErrorExpectedLoop` and return; otherwise
jump to the loop end. -/
def Fullgen.VisitBreak (offset : Nat) (st : GenState) : GenState :=
  match st.loopEnd with
  | none => Fullgen.Throw HeapError.kErrorExpectedLoop offset st
  | some l => { st with code := st.code ++ [CodeInstr.jmp l] }

/-- `Fullgen::VisitContinue` (src/x64/fullgen-x64.cc:700-709): outside a
loop (`loop_start() == NULL`) throw `kErrorExpectedLoop` and return;
otherwise jump to the loop start. -/
def Fullgen.VisitContinue (offset : Nat) (st : GenState) : GenState :=
  match st.loopStart with
  | none => Fullgen.Throw HeapError.kErrorExpectedLoop offset st
  | some l => { st with code := st.code ++ [CodeInstr.jmp l] }

/-! ## Helper lemmas -/

theorem getD_set_eq {α : Type} (l : List α) (i : Nat) (x d : α) (h : i < l.length) :
    (l.set i x).getD i d = x := by
  induction l generalizing i with
  | nil => simp at h
  | cons a t ih =>
    cases i with
    | zero => rfl
    | succ n => exact ih n (by simpa using h)

theorem getD_append_length {α : Type} (l : List α) (x d : α) :
    (l ++ [x]).getD l.length d = x := by
  induction l with
  | nil => rfl
  | cons a t ih => exact ih

theorem getD_mem {α : Type} (l : List α) (i : Nat) (d : α) (h : i < l.length) :
    l.getD i d ∈ l := by
  induction l generalizing i with
  | nil => simp at h
  | cons a t ih =>
    cases i with
    | zero => simp [List.getD]
    | succ n =>
      simp only [List.getD_cons_succ, List.mem_cons]
      exact Or.inr (ih n (by simpa using h))

theorem scanPages_eq_none (eb : Nat) (pages : List Page)
    (h : ∀ p ∈ pages, ¬ (p.top + eb ≤ p.size)) : scanPages eb pages = none := by
  induction pages with
  | nil => rfl
  | cons p rest ih =>
    have hp : ¬ (p.top + eb ≤ p.size) := h p (by simp)
    have hr : scanPages eb rest = none := ih (fun q hq => h q (by simp [hq]))
    simp [scanPages, hp, hr]

theorem scanPages_some (eb : Nat) (pages : List Page) (i : Nat) (d : Page)
    (h : scanPages eb pages = some i) :
    i < pages.length ∧ (pages.getD i d).top + eb ≤ (pages.getD i d).size := by
  induction pages generalizing i with
  | nil => simp [scanPages] at h
  | cons p rest ih =>
    by_cases hp : p.top + eb ≤ p.size
    · by_cases hr : rest.length = 0
      · simp [scanPages, hp, hr] at h
      · simp only [scanPages, if_pos hp, if_neg hr, Option.some.injEq] at h
        subst h
        exact ⟨by simp, by simpa [List.getD] using hp⟩
    · cases hr : scanPages eb rest with
      | none => simp [scanPages, hp, hr] at h
      | some j =>
        simp only [scanPages, if_neg hp, hr, Option.some.injEq] at h
        subst h
        have := ih j hr
        exact ⟨by simpa using Nat.succ_lt_succ this.1, by simpa [List.getD] using this.2⟩

theorem evenBytes_eq (bytes : Nat) (h : bytes + 1 < 4294967296) :
    evenBytes bytes = bytes + bytes % 2 := by
  have h2 : bytes % 2 ≤ 1 := Nat.lt_succ_iff.mp (Nat.mod_lt _ (by norm_num))
  unfold evenBytes
  exact Nat.mod_eq_of_lt (by omega)

theorem RoundUp_ge (v t : Nat) (ht : 0 < t) (hw : v + t ≤ 4294967296) :
    v ≤ RoundUp v t := by
  unfold RoundUp
  by_cases h : v % t = 0
  · simp [h]
  · rw [if_neg h]
    have h1 : v % t < t := Nat.mod_lt _ ht
    have h2 : v % t ≤ v := Nat.mod_le _ _
    have h3 : 1 ≤ v % t := Nat.one_le_iff_ne_zero.mpr h
    rw [Nat.mod_eq_of_lt (by omega)]
    omega

/-! ## Claim C1 -/

/-- Claim C1 (counterexample): on a fresh space with one empty 16-byte
page, `Space::Allocate(8)` returns offset 0 of page 0 and leaves that
page's top at exactly `returned_ptr + 8`, so the claimed strict inequality
`top > returned_ptr + size` is false. -/
theorem c1_counterexample :
    let r := Space.Allocate { pages := [{ size := 16, top := 0 }], cur := 0,
                              page_size := 16, size := 0, sizeLimit := 100, isNew := true } 8
    r.page = 0 ∧ r.off = 0 ∧ (r.sp.pages.getD r.page { size := 0, top := 0 }).top = 8 ∧
      ¬ (r.off + 8 < (r.sp.pages.getD r.page { size := 0, top := 0 }).top) := by
  decide

/-- Claim C1 (amended): for every call `Space::Allocate(size)` on a space
whose selected-page index is valid, with `size + page_size < 2^32` and a
positive page size, the returned pointer lies within some page owned by
the space (`off + size` is within the page's capacity) and after the call
that page's top satisfies `top ≥ returned_ptr + size` (equality occurs
when `size` is even, so the claimed strict `>` does not hold). -/
theorem c1_space_allocate_within_page (s : Space) (bytes : Nat)
    (hc : s.cur < s.pages.length) (hp : 0 < s.page_size)
    (hb : bytes + s.page_size < 4294967296) :
    (s.Allocate bytes).page < (s.Allocate bytes).sp.pages.length ∧
    (s.Allocate bytes).off + bytes ≤
      ((s.Allocate bytes).sp.pages.getD (s.Allocate bytes).page { size := 0, top := 0 }).size ∧
    (s.Allocate bytes).off + bytes ≤
      ((s.Allocate bytes).sp.pages.getD (s.Allocate bytes).page { size := 0, top := 0 }).top := by
  have heb : evenBytes bytes = bytes + bytes % 2 := evenBytes_eq bytes (by omega)
  have hble : bytes ≤ evenBytes bytes := by omega
  have hebw : evenBytes bytes + s.page_size ≤ 4294967296 := by
    have : bytes % 2 ≤ 1 := Nat.lt_succ_iff.mp (Nat.mod_lt _ (by norm_num))
    omega
  by_cases hcur : (s.pages.getD s.cur { size := 0, top := 0 }).top + evenBytes bytes ≤
      (s.pages.getD s.cur { size := 0, top := 0 }).size
  · simp only [Space.Allocate, if_pos hcur]
    refine ⟨by simpa using hc, ?_, ?_⟩
    · rw [getD_set_eq _ _ _ _ (by simpa using hc)]
      dsimp only
      omega
    · rw [getD_set_eq _ _ _ _ (by simpa using hc)]
      dsimp only
      omega
  · cases hscan : scanPages (evenBytes bytes) s.pages with
    | some i =>
      obtain ⟨hilt, hfit⟩ := scanPages_some (evenBytes bytes) s.pages i { size := 0, top := 0 } hscan
      simp only [Space.Allocate, if_neg hcur, hscan]
      refine ⟨by simpa using hilt, ?_, ?_⟩
      · rw [getD_set_eq _ _ _ _ (by simpa using hilt)]
        dsimp only
        omega
      · rw [getD_set_eq _ _ _ _ (by simpa using hilt)]
        dsimp only
        omega
    | none =>
      have hru : evenBytes bytes ≤ RoundUp (evenBytes bytes) s.page_size :=
        RoundUp_ge _ _ hp hebw
      simp only [Space.Allocate, if_neg hcur, hscan]
      refine ⟨by simp, ?_, ?_⟩
      · rw [getD_append_length]
        dsimp only
        omega
      · rw [getD_append_length]
        dsimp only
        omega

/-- Claim C1 witness: the amended theorem applied to a concrete space, a
two-page space whose second page has room for a 5-byte request. -/
theorem c1_witness :
    let s : Space := { pages := [{ size := 8, top := 8 }, { size := 16, top := 2 }], cur := 0,
                       page_size := 8, size := 16, sizeLimit := 100, isNew := true }
    (s.Allocate 5).page < (s.Allocate 5).sp.pages.length ∧
    (s.Allocate 5).off + 5 ≤
      ((s.Allocate 5).sp.pages.getD (s.Allocate 5).page { size := 0, top := 0 }).size ∧
    (s.Allocate 5).off + 5 ≤
      ((s.Allocate 5).sp.pages.getD (s.Allocate 5).page { size := 0, top := 0 }).top :=
  c1_space_allocate_within_page _ 5 (by decide) (by decide) (by decide)

/-! ## Claim C2 -/

/-- Claim C2 (counterexample): a space with page size 4 whose only page
has top 3 of 4 bytes has no room anywhere for a 6-byte request, and
`Space::Allocate(6)` then adds a fresh page of `RoundUp(6, 4) = 8` bytes —
not `max(6, 4) = 6` as the claim states. -/
theorem c2_counterexample :
    let s : Space := { pages := [{ size := 4, top := 3 }], cur := 0,
                       page_size := 4, size := 0, sizeLimit := 100, isNew := true }
    (∀ p ∈ s.pages, ¬ (p.top + evenBytes 6 ≤ p.size)) ∧
    ((s.Allocate 6).sp.pages.getD 1 { size := 0, top := 0 }).size = 8 ∧
    ¬ ((s.Allocate 6).sp.pages.getD 1 { size := 0, top := 0 }).size = max 6 4 := by
  decide

/-- Claim C2 (amended): when neither the current page nor any other owned
page has room for the request rounded up to an even number of bytes,
`Space::Allocate` signals the heap's needs-GC flag for that space's kind
exactly when the space's total size exceeds its size limit, and then
allocates a fresh page whose size is `RoundUp(even_bytes, page_size)` —
the request rounded up to a multiple of `page_size`, which differs from
`max(requested, page_size)` whenever the request exceeds `page_size`
without being a multiple of it. -/
theorem c2_no_room_gc_and_fresh_page (s : Space) (bytes : Nat)
    (hc : s.cur < s.pages.length)
    (hnofit : ∀ p ∈ s.pages, ¬ (p.top + evenBytes bytes ≤ p.size)) :
    (s.Allocate bytes).gcSignal =
      (if s.sizeLimit < s.size then
        some (if s.isNew then GCKind.newSpace else GCKind.oldSpace)
      else none) ∧
    (s.Allocate bytes).sp.pages =
      s.pages ++ [{ size := RoundUp (evenBytes bytes) s.page_size, top := evenBytes bytes }] := by
  have hcur : ¬ ((s.pages.getD s.cur { size := 0, top := 0 }).top + evenBytes bytes ≤
      (s.pages.getD s.cur { size := 0, top := 0 }).size) :=
    hnofit _ (getD_mem s.pages s.cur _ hc)
  have hscan : scanPages (evenBytes bytes) s.pages = none := scanPages_eq_none _ _ hnofit
  simp only [Space.Allocate, if_neg hcur, hscan]
  constructor <;> trivial

/-! ## Claim C3 -/

/-- Claim C3 (counterexample): for a function with `context_slots = 0`,
`GeneratePrologue` still emits `AllocateContext(0)`, and executing that
operation on any machine state allocates a context object — so "no context
is allocated" is false. -/
theorem c3_counterexample :
    PrologueOp.allocateContext 0 ∈ Fullgen.GeneratePrologue 1 0 0 ∧
    (Masm.AllocateContext 0 { heap := [], rdi := CVal.word 7 }).heap.length = 1 := by
  decide

/-- Claim C3 (amended): the prologue emitted by `GeneratePrologue` always
contains the context allocation — `AllocateContext(context_slots)` is
emitted unconditionally, even for `context_slots = 0` — and executing it
allocates exactly one fresh context whose parent is the caller's parent
context (the `rdi` register) and whose slot count is `context_slots`,
leaving the new context in `rdi`. -/
theorem c3_prologue_always_allocates_context (stackSlots contextSlots nargs : Nat)
    (st : MasmState) :
    PrologueOp.allocateContext contextSlots ∈
      Fullgen.GeneratePrologue stackSlots contextSlots nargs ∧
    (Masm.AllocateContext contextSlots st).heap =
      st.heap ++ [{ parent := st.rdi, slotCount := contextSlots,
                    slots := List.replicate contextSlots CVal.vnil }] ∧
    (Masm.AllocateContext contextSlots st).rdi = CVal.ctxRef st.heap.length := by
  refine ⟨?_, rfl, rfl⟩
  simp [Fullgen.GeneratePrologue]

/-! ## Claim C9 -/

/-- Claim C9 (confirmed): generating a break or continue node with no
enclosing loop records the "Expected loop" error with the node's byte
offset, emits the trapping `int3` byte (0xcc) in place of the jump, and
returns normally (the visitor keeps generating, so the error is surfaced
before execution). -/
theorem c9_break_continue_outside_loop (st : GenState) (offset : Nat) :
    (st.loopEnd = none →
      Fullgen.VisitBreak offset st =
        { st with errorMsg := some "Expected loop", errorPos := offset,
                  code := st.code ++ [CodeInstr.byte 0xcc] }) ∧
    (st.loopStart = none →
      Fullgen.VisitContinue offset st =
        { st with errorMsg := some "Expected loop", errorPos := offset,
                  code := st.code ++ [CodeInstr.byte 0xcc] }) := by
  constructor
  · intro h
    simp [Fullgen.VisitBreak, h, Fullgen.Throw, Fullgen.SetError, Heap.ErrorToString]
  · intro h
    simp [Fullgen.VisitContinue, h, Fullgen.Throw, Fullgen.SetError, Heap.ErrorToString]

/-- Claim C9 witness: the theorem applied to a concrete generator state
outside any loop at byte offset 17. -/
theorem c9_witness :
    Fullgen.VisitBreak 17 { code := [], errorMsg := none, errorPos := 0,
                            loopStart := none, loopEnd := none } =
      { code := [CodeInstr.byte 0xcc], errorMsg := some "Expected loop", errorPos := 17,
        loopStart := none, loopEnd := none } ∧
    Fullgen.VisitContinue 17 { code := [], errorMsg := none, errorPos := 0,
                               loopStart := none, loopEnd := none } =
      { code := [CodeInstr.byte 0xcc], errorMsg := some "Expected loop", errorPos := 17,
        loopStart := none, loopEnd := none } :=
  ⟨(c9_break_continue_outside_loop _ 17).1 rfl,
   (c9_break_continue_outside_loop _ 17).2 rfl⟩

/-! ## Claim C10 -/

/-- Claim C10 (code bug): on a heap whose (finite, one-element) weak list
holds an entry for value 1, `Heap::RemoveWeak(2)` never terminates: the
loop body lacks the `tail = tail->prev()` advance that the analogous
`Heap::Dereference` has, so with the tail entry not matching, the state
never changes and the loop never reaches `tail == NULL` — for every fuel
bound the loop is still running. -/
theorem c10_remove_weak_diverges (fuel : Nat) :
    Heap.RemoveWeak 2 fuel [{ value := 1, callback := 0 }] = none := by
  have key : ∀ f, Heap.RemoveWeakRun 2 f [{ value := 1, callback := 0 }] (some 0) = none := by
    intro f
    induction f with
    | zero => rfl
    | succ g ih =>
      have hne : ¬ (([{ value := 1, callback := 0 }] :
          List HValueWeakRef).getD 0 { value := 0, callback := 0 }).value = 2 := by decide
      simpa [Heap.RemoveWeakRun, hne] using ih
  simpa [Heap.RemoveWeak] using key fuel

/-! ## Claim C8 -/

/-- Claim C8 (counterexample): the `Fullgen` constructor interns eight
type-name strings into the root context, not nine. -/
theorem c8_counterexample :
    (Fullgen.rootContextInit.filter RootCell.isTypeStr).length = 8 ∧
    ¬ (Fullgen.rootContextInit.filter RootCell.isTypeStr).length = 9 := by
  decide

/-- Claim C8 (amended): the root context constructed by the code generator
holds, at the fixed root slots 3 through 10 following the global object
(slot 0) and the true/false constants (slots 1 and 2), the eight type-name
strings nil, boolean, number, string, object, array, function and cdata
(each interned with its byte length), so a typeof result is one of these
eight interned strings addressed by a fixed root-slot index. -/
theorem c8_root_context_type_strings :
    Fullgen.rootContextInit.take 3 =
      [RootCell.globalObject, RootCell.boolVal true, RootCell.boolVal false] ∧
    Fullgen.rootContextInit.drop 3 =
      [RootCell.typeStr "nil" 3, RootCell.typeStr "boolean" 7,
       RootCell.typeStr "number" 6, RootCell.typeStr "string" 6,
       RootCell.typeStr "object" 6, RootCell.typeStr "array" 5,
       RootCell.typeStr "function" 8, RootCell.typeStr "cdata" 5] ∧
    (Fullgen.rootContextInit.filter RootCell.isTypeStr).length = 8 := by
  decide

/-! ## Claim C5 -/

/-- Claim C5 (counterexample): the empty string hashes to 0, which is also
the "not computed" marker, so after a first `HString::Hash` call the
second call still sees a zero header field, recomputes, and performs a
write — refuting "the second call … performs no writes" for every
string. -/
theorem c5_counterexample :
    ComputeHash [] = 0 ∧
    (HString.Hash (HString.Hash { hashField := 0, bytes := [] }).obj).wrote = true := by
  decide

/-- Claim C5 (amended): for every string whose content hashes to a
non-zero value, after `HString::Hash` has been called once, a second call
returns the same hash by reading the cached header field and performs no
writes to the string; a string whose content hashes to 0 (such as the
empty string) is recomputed and re-stored on every call. -/
theorem c5_second_hash_call_cached (s : HStringObj) (h : ComputeHash s.bytes ≠ 0) :
    (HString.Hash (HString.Hash s).obj).wrote = false ∧
    (HString.Hash (HString.Hash s).obj).hash = (HString.Hash s).hash ∧
    (HString.Hash (HString.Hash s).obj).hash = (HString.Hash s).obj.hashField ∧
    (HString.Hash (HString.Hash s).obj).obj = (HString.Hash s).obj := by
  by_cases h0 : s.hashField = 0
  · simp [HString.Hash, h0, h]
  · simp [HString.Hash, h0]

/-- Claim C5 witness: the amended theorem applied to the one-byte string
"a" (byte 97), whose hash is non-zero. -/
theorem c5_witness :
    (HString.Hash (HString.Hash { hashField := 0, bytes := [97] }).obj).wrote = false ∧
    (HString.Hash (HString.Hash { hashField := 0, bytes := [97] }).obj).hash =
      (HString.Hash { hashField := 0, bytes := [97] }).hash ∧
    (HString.Hash (HString.Hash { hashField := 0, bytes := [97] }).obj).hash =
      (HString.Hash { hashField := 0, bytes := [97] }).obj.hashField ∧
    (HString.Hash (HString.Hash { hashField := 0, bytes := [97] }).obj).obj =
      (HString.Hash { hashField := 0, bytes := [97] }).obj :=
  c5_second_hash_call_cached { hashField := 0, bytes := [97] } (by decide)

/-! ## Claim C6 -/

theorem foldl_congr_of_mem {α β : Type} (f g : β → α → β) (l : List α)
    (P : α → Prop) (hl : ∀ b ∈ l, P b) (hfg : ∀ acc b, P b → f acc b = g acc b) :
    ∀ acc, l.foldl f acc = l.foldl g acc := by
  induction l with
  | nil => intro acc; rfl
  | cons a t ih =>
    intro acc
    rw [List.foldl_cons, List.foldl_cons, hfg acc a (hl a (by simp))]
    exact ih (fun b hb => hl b (by simp [hb])) _

/-- Claim C6 (counterexample): on the single byte 0x80 the hash emitted by
`Masm::StringHash` (which zero-extends the byte with `movzxb`) differs
from `ComputeHash` (which reads it through signed `char`, sign-extending
it), so the two are not equal for every byte sequence. -/
theorem c6_counterexample :
    Masm.StringHashCompute [128] ≠ ComputeHash [128] := by
  decide

/-- Claim C6 (amended): for every byte sequence, the hash computed by the
`Masm::StringHash` loop equals the spec's 32-bit mixer applied to the
(unsigned) byte values; it moreover equals `ComputeHash(key, length)`
exactly on sequences whose bytes are all below 0x80 — for a byte at or
above 0x80, `ComputeHash` adds the sign-extended signed-char value while
the assembly adds the zero-extended byte, and the hashes differ. -/
theorem c6_string_hash_refines_mixer (key : List Nat) (hb : ∀ b ∈ key, b < 256) :
    Masm.StringHashCompute key = specHashMixer key ∧
    ((∀ b ∈ key, b < 128) → Masm.StringHashCompute key = ComputeHash key) := by
  constructor
  · unfold Masm.StringHashCompute specHashMixer
    rw [foldl_congr_of_mem masmHashStep _ key (fun b => b < 256) hb]
    intro acc b hblt
    simp [masmHashStep, Nat.mod_eq_of_lt hblt, Nat.add_comm]
  · intro hascii
    unfold Masm.StringHashCompute ComputeHash
    rw [foldl_congr_of_mem masmHashStep cppHashStep key (fun b => b < 128) hascii]
    intro acc b hblt
    have hm : b % 256 = b := Nat.mod_eq_of_lt (by omega)
    simp [masmHashStep, cppHashStep, signedCharVal, hm, hblt, Nat.add_comm]

/-- Claim C6 witness: the amended theorem applied to the two-byte ASCII
sequence `[104, 105]` ("hi"). -/
theorem c6_witness :
    Masm.StringHashCompute [104, 105] = specHashMixer [104, 105] ∧
    Masm.StringHashCompute [104, 105] = ComputeHash [104, 105] :=
  ⟨(c6_string_hash_refines_mixer [104, 105] (by decide)).1,
   (c6_string_hash_refines_mixer [104, 105] (by decide)).2 (by decide)⟩

/-! ## Claim C4 -/

theorem shrinkLoop_spec (elems : Int → HVal)
    (hneg : ∀ j : Int, j < 0 → elems j = HVal.hnil) :
    ∀ (n fuel : Nat), n + 2 ≤ fuel →
      (HArray.shrinkLoop elems fuel (n : Int) = -1 ∧
        ∀ j : Int, 0 ≤ j → j < (n : Int) → elems j = HVal.hnil) ∨
      (∃ m : Nat, HArray.shrinkLoop elems fuel (n : Int) = (m : Int) ∧ m < n ∧
        elems (m : Int) ≠ HVal.hnil ∧
        ∀ j : Int, (m : Int) < j → j < (n : Int) → elems j = HVal.hnil) := by
  intro n
  induction n with
  | zero =>
    intro fuel hf
    obtain ⟨f, rfl⟩ : ∃ f, fuel = f + 2 := ⟨fuel - 2, by omega⟩
    left
    constructor
    · have e1 : HObject.lookupSlot elems ((0 : Int) - 1) = HVal.hnil := by
        simpa [HObject.lookupSlot] using hneg (-1) (by norm_num)
      simp [HArray.shrinkLoop, e1]
    · intro j h1 h2
      exact absurd h2 (by omega)
  | succ n ih =>
    intro fuel hf
    obtain ⟨f, rfl⟩ : ∃ f, fuel = f + 1 := ⟨fuel - 1, by omega⟩
    have hs1 : ((n + 1 : Nat) : Int) - 1 = (n : Int) := by push_cast; ring
    by_cases hnil : elems (n : Int) = HVal.hnil
    · have hstep : HArray.shrinkLoop elems (f + 1) ((n + 1 : Nat) : Int) =
          HArray.shrinkLoop elems f (n : Int) := by
        have hcond : ¬ (((n + 1 : Nat) : Int) < 0) := by push_cast; omega
        have hlook : HObject.lookupSlot elems (((n + 1 : Nat) : Int) - 1) = HVal.hnil := by
          rw [hs1]; simpa [HObject.lookupSlot] using hnil
        simp only [HArray.shrinkLoop, hs1]
        rw [if_neg (by push_cast; omega), if_pos (by simpa [HObject.lookupSlot] using hnil)]
      rw [hstep]
      rcases ih f (by omega) with ⟨heq, hall⟩ | ⟨m, heq, hlt, hne, hrange⟩
      · left
        refine ⟨heq, ?_⟩
        intro j h1 h2
        by_cases hj : j < (n : Int)
        · exact hall j h1 hj
        · have : j = (n : Int) := by push_cast at h2; omega
          rw [this]; exact hnil
      · right
        refine ⟨m, heq, by omega, hne, ?_⟩
        intro j h1 h2
        by_cases hj : j < (n : Int)
        · exact hrange j h1 hj
        · have : j = (n : Int) := by push_cast at h2; omega
          rw [this]; exact hnil
    · right
      refine ⟨n, ?_, by omega, hnil, ?_⟩
      · have hcond : ¬ (((n + 1 : Nat) : Int) < 0) := by push_cast; omega
        have hlook : ¬ (HObject.lookupSlot elems (((n + 1 : Nat) : Int) - 1) = HVal.hnil) := by
          rw [hs1]; simpa [HObject.lookupSlot] using hnil
        simp only [HArray.shrinkLoop, hs1]
        rw [if_neg (by push_cast; omega), if_neg (by simpa [HObject.lookupSlot] using hnil)]
      · intro j h1 h2
        exact absurd h2 (by push_cast; omega)

/-- Claim C4 (confirmed): for an array whose backing map stores nil at
every key outside `[0, len)`, `HArray::Length(obj, shrink = true)` returns
the index of the last non-nil element plus one — every slot at or beyond
the result is nil, and the slot just below it is non-nil unless the result
is 0 — and stores exactly that value back as the array's new length. -/
theorem c4_array_length_shrink (len : Nat) (elems : Int → HVal)
    (hout : ∀ j : Int, j < 0 ∨ (len : Int) ≤ j → elems j = HVal.hnil) :
    (HArray.Length (len : Int) elems true).2 = some (HArray.Length (len : Int) elems true).1 ∧
    0 ≤ (HArray.Length (len : Int) elems true).1 ∧
    (HArray.Length (len : Int) elems true).1 ≤ (len : Int) ∧
    (∀ j : Int, (HArray.Length (len : Int) elems true).1 ≤ j → elems j = HVal.hnil) ∧
    ((HArray.Length (len : Int) elems true).1 = 0 ∨
      elems ((HArray.Length (len : Int) elems true).1 - 1) ≠ HVal.hnil) := by
  have hneg : ∀ j : Int, j < 0 → elems j = HVal.hnil := fun j hj => hout j (Or.inl hj)
  have htn : ((len : Int)).toNat = len := Int.toNat_natCast len
  rcases shrinkLoop_spec elems hneg len (len + 2) (by omega) with
    ⟨heq, hall⟩ | ⟨m, heq, hlt, hne, hrange⟩
  · have hr : HArray.Length (len : Int) elems true = (0, some 0) := by
      simp only [HArray.Length, if_true, htn, heq]
      rw [if_pos (by omega)]
      norm_num
    rw [hr]
    refine ⟨rfl, by norm_num, by positivity, ?_, Or.inl rfl⟩
    intro j hj
    by_cases hjl : j < (len : Int)
    · exact hall j hj hjl
    · exact hout j (Or.inr (by omega))
  · have hr : HArray.Length (len : Int) elems true = ((m : Int) + 1, some ((m : Int) + 1)) := by
      simp only [HArray.Length, if_true, htn, heq]
      rw [if_pos (by omega)]
    rw [hr]
    refine ⟨rfl, by positivity, by push_cast; omega, ?_, ?_⟩
    · intro j hj
      by_cases hjl : j < (len : Int)
      · exact hrange j (by omega) hjl
      · exact hout j (Or.inr (by omega))
    · right
      simpa using hne

/-- Claim C4 witness: the amended theorem at the spec's concrete scenario
`a = [1,2,3]; a[2] = nil`: the backing map holds non-nil values at keys 0
and 1 and nil everywhere else, the length field is 3, and
`HArray::Length(a, shrink = true)` returns 2 and stores 2. -/
theorem c4_witness :
    HArray.Length (3 : Int)
      (fun j => if j = 0 then HVal.hval 1 else if j = 1 then HVal.hval 2 else HVal.hnil)
      true = (2, some 2) ∧
    (∀ j : Int,
      (HArray.Length ((3 : Nat) : Int)
        (fun j => if j = 0 then HVal.hval 1 else if j = 1 then HVal.hval 2 else HVal.hnil)
        true).1 ≤ j →
      (if j = 0 then HVal.hval 1 else if j = 1 then HVal.hval 2 else HVal.hnil) = HVal.hnil) :=
  ⟨by decide,
   (c4_array_length_shrink 3
      (fun j => if j = 0 then HVal.hval 1 else if j = 1 then HVal.hval 2 else HVal.hnil)
      (fun j hj => by
        have h0 : j ≠ 0 := by rcases hj with h | h <;> omega
        have h1 : j ≠ 1 := by rcases hj with h | h <;> omega
        simp [h0, h1])).2.2.2.1⟩

/-! ## Claim C7 -/

theorem powerOfTwoGo_spec (v : Nat) (hv : v ≤ 2 ^ 31) :
    ∀ (fuel j : Nat), 1 ≤ j → 33 ≤ fuel + j → 2 ^ (j - 1) < v →
      ∃ m, 1 ≤ m ∧ powerOfTwoGo v fuel (2 ^ j) = 2 ^ m ∧ v ≤ 2 ^ m ∧ 2 ^ (m - 1) < v := by
  intro fuel
  induction fuel with
  | zero =>
    intro j hj hfj hlow
    exfalso
    have hlt : (2 : Nat) ^ (j - 1) < 2 ^ 31 := lt_of_lt_of_le hlow hv
    have hj31 : j - 1 < 31 := (Nat.pow_lt_pow_iff_right (by norm_num)).mp hlt
    omega
  | succ f ih =>
    intro j hj hfj hlow
    by_cases hcase : 2 ^ j < v
    · have hj31 : j < 31 := by
        have hlt : (2 : Nat) ^ j < 2 ^ 31 := lt_of_lt_of_le hcase hv
        exact (Nat.pow_lt_pow_iff_right (by norm_num)).mp hlt
      have hshift : ((2 ^ j) <<< 1) % 4294967296 = 2 ^ (j + 1) := by
        have e1 : (2 : Nat) ^ j <<< 1 = 2 ^ (j + 1) := by
          rw [Nat.shiftLeft_eq]; ring
        rw [e1]
        apply Nat.mod_eq_of_lt
        calc (2 : Nat) ^ (j + 1) ≤ 2 ^ 31 := Nat.pow_le_pow_right (by norm_num) (by omega)
          _ < 4294967296 := by norm_num
      have hstep : powerOfTwoGo v (f + 1) (2 ^ j) = powerOfTwoGo v f (2 ^ (j + 1)) := by
        simp only [powerOfTwoGo]
        rw [if_pos ⟨by positivity, hcase⟩, hshift]
      rw [hstep]
      exact ih (j + 1) (by omega) (by omega) (by simpa using hcase)
    · refine ⟨j, hj, ?_, by omega, hlow⟩
      simp only [powerOfTwoGo]
      rw [if_neg (fun hand => hcase hand.2)]

/-- Claim C7 (counterexample): an empty object or array literal (`n = 0`
pairs/elements) gets a backing map of capacity `PowerOfTwo(0) = 2`, yet
`2^0 = 1` is a power of two with `1 ≥ 2·0` and `1 < 2` — so the capacity
is not the smallest power of two greater than or equal to `2·n`. -/
theorem c7_counterexample :
    Fullgen.objectLiteralCapacity 0 = 2 ∧ 2 * 0 ≤ 2 ^ 0 ∧ 2 ^ 0 < 2 := by
  decide

/-- Claim C7 (amended): for every object or array literal with `n ≥ 1`
key/value pairs (or elements) and `2·n ≤ 2^31`, the generator allocates a
backing map whose capacity is the smallest power of two greater than or
equal to `2·n`; for `n = 0` the capacity is 2 (the loop of `PowerOfTwo`
starts at 2), not 1.  In particular a two-pair object literal gets a map
of capacity 4. -/
theorem c7_literal_capacity_power_of_two (n : Nat) (h1 : 1 ≤ n) (h2 : 2 * n ≤ 2 ^ 31) :
    2 * n ≤ Fullgen.objectLiteralCapacity n ∧
    (∃ k, Fullgen.objectLiteralCapacity n = 2 ^ k) ∧
    (∀ k, 2 * n ≤ 2 ^ k → Fullgen.objectLiteralCapacity n ≤ 2 ^ k) := by
  have hshl : (n <<< 1) % 4294967296 = 2 * n := by
    rw [Nat.shiftLeft_eq]
    rw [show n * 2 ^ 1 = 2 * n by ring]
    exact Nat.mod_eq_of_lt (by omega)
  have h2v : 2 ≤ 2 * n := by omega
  obtain ⟨m, hm1, heq, hle, hlow⟩ :=
    powerOfTwoGo_spec (2 * n) h2 33 1 (by norm_num) (by norm_num)
      (by simp only [Nat.sub_self, pow_zero]; omega)
  have hcap : Fullgen.objectLiteralCapacity n = 2 ^ m := by
    unfold Fullgen.objectLiteralCapacity PowerOfTwo
    rw [hshl, show (2 : Nat) = 2 ^ 1 from rfl]
    exact heq
  rw [hcap]
  refine ⟨hle, ⟨m, rfl⟩, ?_⟩
  intro k hk
  have hmk : m - 1 < k := by
    have : (2 : Nat) ^ (m - 1) < 2 ^ k := lt_of_lt_of_le hlow hk
    exact (Nat.pow_lt_pow_iff_right (by norm_num)).mp this
  exact Nat.pow_le_pow_right (by norm_num) (by omega)

/-- Claim C7 witness: the amended theorem applied to a two-pair object
literal (`n = 2`), whose map capacity is 4, together with the concrete
evaluation `objectLiteralCapacity 2 = 4`. -/
theorem c7_witness :
    Fullgen.objectLiteralCapacity 2 = 4 ∧
    (2 * 2 ≤ Fullgen.objectLiteralCapacity 2 ∧
      (∃ k, Fullgen.objectLiteralCapacity 2 = 2 ^ k) ∧
      (∀ k, 2 * 2 ≤ 2 ^ k → Fullgen.objectLiteralCapacity 2 ≤ 2 ^ k)) :=
  ⟨by decide, c7_literal_capacity_power_of_two 2 (by decide) (by norm_num)⟩

/-- Claim C2 witness: the amended theorem applied to a concrete
over-limit space (size 200, limit 100): the needs-GC flag is signalled for
the new space and the fresh page is `RoundUp(6, 4) = 8` bytes. -/
theorem c2_witness :
    let s : Space := { pages := [{ size := 4, top := 3 }], cur := 0,
                       page_size := 4, size := 200, sizeLimit := 100, isNew := true }
    (s.Allocate 6).gcSignal =
      (if s.sizeLimit < s.size then
        some (if s.isNew then GCKind.newSpace else GCKind.oldSpace)
      else none) ∧
    (s.Allocate 6).sp.pages =
      s.pages ++ [{ size := RoundUp (evenBytes 6) s.page_size, top := evenBytes 6 }] :=
  c2_no_room_gc_and_fresh_page _ 6 (by decide) (by decide)

end Candor
